import Mathlib

/-!
# Verification of `ts_hashmap.c` (fixed-capacity bucket hash map)

Shallow embedding of the C source `src/ts_hashmap.c`.  A collision chain
(`ts_entry_t*` linked by `next`) is modelled as a Lean `List ts_entry_t`;
the bucket table (`ts_entry_t **table`) as a `List` of chains; the C `int`
counters `size` and `numOps` as `Int` (no operation here can overflow a
32-bit counter within the scenarios considered).  The pthread locks only
serialize the critical sections, so the sequential semantics of each
operation is exactly the lock-free body; locks are therefore not part of
the state.

Uninitialized memory (the C code reads malloc'd memory it never wrote in
`initmap`, and `put` leaves `newEntry->next` unset in its empty-bucket
branch) is modelled by explicit "junk" parameters: the theorems quantify
over every possible content of that indeterminate memory.
-/

/-- `ts_entry_t`: a chain node carrying `int key; int value;`.  The C
`next` pointer is the tail of the enclosing Lean list. -/
structure ts_entry_t where
  key : Int
  value : Int
deriving DecidableEq, Repr

/-- `ts_hashmap_t`: `table` (array of chain heads), `size`, `numOps`
and `capacity` fields of the C struct.  The lock fields carry no
sequential state and are omitted. -/
structure ts_hashmap_t where
  table : List (List ts_entry_t)
  size : Int
  numOps : Int
  capacity : Int
deriving DecidableEq, Repr

/-- C `INT_MAX` for 32-bit `int`: the found/absent sentinel of the code. -/
def INT_MAX : Int := 2147483647

/-- `hashCode` (ts_hashmap.c:135-138): `unsigned int unskey = (unsigned
int) key; return unskey % map->capacity;`.  The cast to `unsigned int` is
reduction mod 2^32; for `capacity > 0` the usual arithmetic conversions
make `unskey % capacity` the plain mathematical remainder. -/
def hashCode (map : ts_hashmap_t) (key : Int) : Nat :=
  (key % 4294967296).toNat % map.capacity.toNat

/-- `initmap` (ts_hashmap.c:14-29).  The C code mallocs the struct and,
for every bucket `i`, mallocs a fresh `ts_entry_t` and stores it as the
chain head — it never writes that entry's fields and never assigns
`map->size` or `map->numOps`.  The indeterminate content of that memory
is passed in explicitly: `junkEntry i` is whatever the uninitialized head
entry of bucket `i` reads as, `junkTail i` whatever chain its
uninitialized `next` pointer leads to, `junkSize`/`junkOps` the
indeterminate initial counters. -/
def initmap (capacity : Int) (junkEntry : Nat → ts_entry_t)
    (junkTail : Nat → List ts_entry_t) (junkSize junkOps : Int) : ts_hashmap_t :=
  { table := (List.range capacity.toNat).map (fun i => junkEntry i :: junkTail i)
    size := junkSize
    numOps := junkOps
    capacity := capacity }

/-- The scan loop of `get` (ts_hashmap.c:44-50): walk the chain, return
`current->value` at the first key match, `INT_MAX` if the chain ends. -/
def getLoop (key : Int) : List ts_entry_t → Int
  | [] => INT_MAX
  | e :: rest => if e.key = key then e.value else getLoop key rest

/-- `get` (ts_hashmap.c:37-53): bump `numOps`, hash, scan the one bucket.
Returns the C return value paired with the post-state. -/
def get (map : ts_hashmap_t) (key : Int) : Int × ts_hashmap_t :=
  let map1 := { map with numOps := map.numOps + 1 }
  let here := hashCode map1 key
  (getLoop key (map1.table.getD here []), map1)

/-- The scan loop of `put` (ts_hashmap.c:70-78): walk the chain; at the
first key match overwrite `current->value` in place and report the old
value and the updated chain; `none` if the key is absent. -/
def putLoop (key value : Int) : List ts_entry_t → Option (Int × List ts_entry_t)
  | [] => none
  | e :: rest =>
    if e.key = key then some (e.value, ⟨e.key, value⟩ :: rest)
    else
      match putLoop key value rest with
      | some (oldval, rest2) => some (oldval, e :: rest2)
      | none => none

/-- `put` (ts_hashmap.c:62-93): bump `numOps`, hash, scan; on a match
return the old value.  Otherwise allocate `newEntry` and install it: if
the bucket head was `NULL` the code stores `newEntry` WITHOUT assigning
`newEntry->next` (ts_hashmap.c:81) — the chain continues into
indeterminate memory, passed in as `junkNext`; otherwise
`newEntry->next = head` (ts_hashmap.c:83-84).  Then `size++` and return
`INT_MAX`. -/
def put (map : ts_hashmap_t) (key value : Int) (junkNext : List ts_entry_t) :
    Int × ts_hashmap_t :=
  let map1 := { map with numOps := map.numOps + 1 }
  let here := hashCode map1 key
  let chain := map1.table.getD here []
  match putLoop key value chain with
  | some (oldval, chain2) =>
      (oldval, { map1 with table := map1.table.set here chain2 })
  | none =>
      let newChain :=
        if chain.isEmpty then ⟨key, value⟩ :: junkNext else ⟨key, value⟩ :: chain
      (INT_MAX, { map1 with table := map1.table.set here newChain,
                            size := map1.size + 1 })

/-- The scan-and-unlink of `del` (ts_hashmap.c:107-127): find the first
key match tracking the predecessor, unlink it (head update or
`previous->next = current->next`), report `current->value` and the
remaining chain; `none` when the chain is empty or the key is absent. -/
def delLoop (key : Int) : List ts_entry_t → Option (Int × List ts_entry_t)
  | [] => none
  | e :: rest =>
    if e.key = key then some (e.value, rest)
    else
      match delLoop key rest with
      | some (v, rest2) => some (v, e :: rest2)
      | none => none

/-- `del` (ts_hashmap.c:101-133): bump `numOps`, hash, scan-and-unlink;
on a miss return `INT_MAX`, on a hit `size--` and return the removed
value. -/
def del (map : ts_hashmap_t) (key : Int) : Int × ts_hashmap_t :=
  let map1 := { map with numOps := map.numOps + 1 }
  let here := hashCode map1 key
  match delLoop key (map1.table.getD here []) with
  | none => (INT_MAX, map1)
  | some (v, chain2) =>
      (v, { map1 with table := map1.table.set here chain2, size := map1.size - 1 })

/-- Number of entries reachable across all bucket chains. -/
def countEntries (map : ts_hashmap_t) : Nat :=
  (map.table.map List.length).sum

/-- Shared sample state for the witnesses: capacity 2, key 0 in bucket 0,
key 1 in bucket 1, both correctly placed w.r.t. `hashCode`. -/
def sampleMap : ts_hashmap_t :=
  { table := [[⟨0, 10⟩], [⟨1, 20⟩]], size := 2, numOps := 0, capacity := 2 }

example : (get sampleMap 0).1 = 10 := by decide
example : (get sampleMap 5).1 = INT_MAX := by decide
example : (put sampleMap 5 55 []).1 = INT_MAX := by decide
example : (get (put sampleMap 5 55 []).2 5).1 = 55 := by decide
example : (del sampleMap 0).1 = 10 := by decide
example : (del sampleMap 0).2.size = 1 := by decide

/-! ## Helper lemmas -/

theorem hashCode_lt (m : ts_hashmap_t) (key : Int) (h : 0 < m.capacity) :
    hashCode m key < m.capacity.toNat := by
  have h0 : 0 < m.capacity.toNat := by omega
  exact Nat.mod_lt _ h0

theorem getD_set_self {α : Type} :
    ∀ (l : List α) (i : Nat) (x d : α), i < l.length → (l.set i x).getD i d = x
  | [], i, x, d, h => absurd h (by simp)
  | a :: l, 0, x, d, _ => rfl
  | a :: l, i + 1, x, d, h => getD_set_self l i x d (by simpa using h)

theorem getD_set_ne {α : Type} :
    ∀ (l : List α) (i j : Nat) (x d : α), j ≠ i → (l.set i x).getD j d = l.getD j d
  | [], _, _, _, _, _ => rfl
  | a :: l, 0, 0, x, d, h => absurd rfl h
  | a :: l, 0, j + 1, x, d, _ => rfl
  | a :: l, i + 1, 0, x, d, _ => rfl
  | a :: l, i + 1, j + 1, x, d, h =>
      getD_set_ne l i j x d (fun hji => h (by omega))

theorem getLoop_head (key v : Int) (t : List ts_entry_t) :
    getLoop key (⟨key, v⟩ :: t) = v := by
  simp [getLoop]

theorem getLoop_absent (key : Int) :
    ∀ c : List ts_entry_t, (∀ e ∈ c, e.key ≠ key) → getLoop key c = INT_MAX
  | [], _ => rfl
  | e :: rest, h => by
      have he : e.key ≠ key := h e (List.mem_cons_self _ _)
      simp only [getLoop, if_neg he]
      exact getLoop_absent key rest (fun x hx => h x (List.mem_cons_of_mem _ hx))

theorem putLoop_absent (key value : Int) :
    ∀ c : List ts_entry_t, (∀ e ∈ c, e.key ≠ key) → putLoop key value c = none
  | [], _ => rfl
  | e :: rest, h => by
      have he : e.key ≠ key := h e (List.mem_cons_self _ _)
      simp only [putLoop, if_neg he]
      rw [putLoop_absent key value rest (fun x hx => h x (List.mem_cons_of_mem _ hx))]

/-- After a successful in-place overwrite, the first occurrence of `key`
carries the new value, so the `get` scan returns it. -/
theorem getLoop_of_putLoop (key value : Int) :
    ∀ (c : List ts_entry_t) (o : Int) (c' : List ts_entry_t),
      putLoop key value c = some (o, c') → getLoop key c' = value
  | [], o, c', h => by simp [putLoop] at h
  | e :: rest, o, c', h => by
      by_cases he : e.key = key
      · simp only [putLoop, if_pos he] at h
        obtain ⟨-, rfl⟩ := Prod.mk.injEq .. ▸ Option.some.injEq .. ▸ h
        simp [getLoop, he]
      · simp only [putLoop, if_neg he] at h
        cases hrec : putLoop key value rest with
        | none => rw [hrec] at h; exact absurd h (by simp)
        | some p =>
          rw [hrec] at h
          obtain ⟨o2, rest2⟩ := p
          simp only [Option.some.injEq, Prod.mk.injEq] at h
          obtain ⟨rfl, rfl⟩ := h
          simp only [getLoop, if_neg he]
          exact getLoop_of_putLoop key value rest o2 rest2 hrec

/-- After a successful overwrite with `v1`, a second `put` scan with any
`v2` finds the key again and reports old value `v1`. -/
theorem putLoop_of_putLoop (key v1 v2 : Int) :
    ∀ (c : List ts_entry_t) (o : Int) (c' : List ts_entry_t),
      putLoop key v1 c = some (o, c') →
      ∃ c'', putLoop key v2 c' = some (v1, c'')
  | [], o, c', h => by simp [putLoop] at h
  | e :: rest, o, c', h => by
      by_cases he : e.key = key
      · simp only [putLoop, if_pos he] at h
        obtain ⟨-, rfl⟩ := Prod.mk.injEq .. ▸ Option.some.injEq .. ▸ h
        exact ⟨⟨e.key, v2⟩ :: rest, by simp [putLoop, he]⟩
      · simp only [putLoop, if_neg he] at h
        cases hrec : putLoop key v1 rest with
        | none => rw [hrec] at h; exact absurd h (by simp)
        | some p =>
          rw [hrec] at h
          obtain ⟨o2, rest2⟩ := p
          simp only [Option.some.injEq, Prod.mk.injEq] at h
          obtain ⟨rfl, rfl⟩ := h
          obtain ⟨c'', hc''⟩ := putLoop_of_putLoop key v1 v2 rest o2 rest2 hrec
          exact ⟨e :: c'', by simp only [putLoop, if_neg he, hc'']⟩

theorem putLoop_head (key v1 v2 : Int) (tail : List ts_entry_t) :
    putLoop key v2 (⟨key, v1⟩ :: tail) = some (v1, ⟨key, v2⟩ :: tail) := by
  simp [putLoop]

theorem delLoop_absent (key : Int) :
    ∀ c : List ts_entry_t, (∀ e ∈ c, e.key ≠ key) → delLoop key c = none
  | [], _ => rfl
  | e :: rest, h => by
      have he : e.key ≠ key := h e (List.mem_cons_self _ _)
      simp only [delLoop, if_neg he]
      rw [delLoop_absent key rest (fun x hx => h x (List.mem_cons_of_mem _ hx))]

theorem delLoop_present (key : Int) :
    ∀ c : List ts_entry_t, (∃ e ∈ c, e.key = key) → ∃ p, delLoop key c = some p
  | [], h => by simp at h
  | e :: rest, h => by
      by_cases he : e.key = key
      · exact ⟨(e.value, rest), by simp [delLoop, he]⟩
      · have : ∃ x ∈ rest, x.key = key := by
          obtain ⟨x, hx, hk⟩ := h
          cases List.mem_cons.mp hx with
          | inl hxe => exact absurd (hxe ▸ hk) he
          | inr hxr => exact ⟨x, hxr, hk⟩
        obtain ⟨⟨v, rest2⟩, hp⟩ := delLoop_present key rest this
        exact ⟨(v, e :: rest2), by simp only [delLoop, if_neg he, hp]⟩

/-- When the key occurs at most once in the chain, unlinking it is
exactly filtering it out: all other entries survive in order. -/
theorem delLoop_eq_filter (key : Int) :
    ∀ (c : List ts_entry_t) (v : Int) (c' : List ts_entry_t),
      c.countP (fun e => e.key == key) ≤ 1 →
      delLoop key c = some (v, c') →
      c' = c.filter (fun e => !(e.key == key))
  | [], v, c', _, h => by simp [delLoop] at h
  | e :: rest, v, c', hcount, h => by
      by_cases he : e.key = key
      · simp only [delLoop, if_pos he] at h
        obtain ⟨-, rfl⟩ := Prod.mk.injEq .. ▸ Option.some.injEq .. ▸ h
        have hc0 : rest.countP (fun e => e.key == key) = 0 := by
          rw [List.countP_cons_of_pos _ _ (by simp [he])] at hcount
          omega
        have hall : ∀ x ∈ rest, ¬((fun e : ts_entry_t => e.key == key) x = true) := by
          rw [← List.countP_eq_zero]
          exact hc0
        rw [List.filter_cons_of_neg (by simp [he]),
          List.filter_eq_self.mpr (fun a ha => by simpa using hall a ha)]
      · simp only [delLoop, if_neg he] at h
        cases hrec : delLoop key rest with
        | none => rw [hrec] at h; exact absurd h (by simp)
        | some p =>
          rw [hrec] at h
          obtain ⟨v2, rest2⟩ := p
          simp only [Option.some.injEq, Prod.mk.injEq] at h
          obtain ⟨rfl, rfl⟩ := h
          have : rest.countP (fun e => e.key == key) ≤ 1 := by
            rw [List.countP_cons_of_neg _ _ (by simp [he])] at hcount
            exact hcount
          rw [List.filter_cons_of_pos (by simp [he])]
          rw [delLoop_eq_filter key rest v2 rest2 this hrec]

/-- Unfolding equation for `get` (the bucket index ignores the `numOps`
bump, so it can be computed on the pre-state). -/
theorem get_eq (m : ts_hashmap_t) (key : Int) :
    get m key = (getLoop key (m.table.getD (hashCode m key) []),
      { m with numOps := m.numOps + 1 }) := rfl

/-- Core round-trip fact shared by several claims: reading back a key
just written always yields the written value, whichever branch `put`
took (in-place overwrite, prepend to a non-empty chain, or the
empty-bucket branch whose `next` is junk — the new entry is scanned
first in every case). -/
theorem get_after_put (m : ts_hashmap_t) (K V : Int) (junkNext : List ts_entry_t)
    (hcap : 0 < m.capacity) (hlen : m.table.length = m.capacity.toNat) :
    (get (put m K V junkNext).2 K).1 = V := by
  obtain ⟨t, s, n, c⟩ := m
  have hlt : (K % 4294967296).toNat % c.toNat < t.length := by
    rw [hlen]
    exact hashCode_lt ⟨t, s, n, c⟩ K hcap
  simp only [put, get_eq, hashCode]
  cases hscan : putLoop K V (t.getD ((K % 4294967296).toNat % c.toNat) []) with
  | some p =>
    obtain ⟨o, c2⟩ := p
    simp only [getD_set_self t _ c2 [] hlt]
    exact getLoop_of_putLoop K V _ o c2 hscan
  | none =>
    simp only [getD_set_self t _ _ [] hlt]
    split
    · exact getLoop_head K V junkNext
    · exact getLoop_head K V _

/-! ## Claim theorems -/

/-- C5: for all `(K, V)` with K and V in the valid int32 range,
`put(K, V)` followed by `get(K)` returns `V`.  Holds on every map state
(any chain content, any junk in the uninitialized `next` of the
empty-bucket branch): both scans resolve the first occurrence of the
key, and `put` always leaves the first occurrence carrying `V`. -/
theorem C5_put_get_roundtrip (m : ts_hashmap_t) (K V : Int)
    (junkNext : List ts_entry_t) (hcap : 0 < m.capacity)
    (hlen : m.table.length = m.capacity.toNat)
    (_hK1 : -2147483648 ≤ K) (_hK2 : K ≤ 2147483647)
    (_hV1 : -2147483648 ≤ V) (_hV2 : V ≤ 2147483647) :
    (get (put m K V junkNext).2 K).1 = V :=
  get_after_put m K V junkNext hcap hlen

theorem C5_put_get_roundtrip_witness :
    0 < sampleMap.capacity ∧ sampleMap.table.length = sampleMap.capacity.toNat ∧
    (get (put sampleMap 5 55 []).2 5).1 = 55 :=
  ⟨by decide, by decide,
    C5_put_get_roundtrip sampleMap 5 55 [] (by decide) (by decide)
      (by decide) (by decide) (by decide) (by decide)⟩

/-- C6: after `put(K, V1)`, a second `put(K, V2)` returns `V1` (the
previous value, overwritten in place) and `size` does not change across
the second call. -/
theorem C6_overwrite_returns_old (m : ts_hashmap_t) (K V1 V2 : Int)
    (j1 j2 : List ts_entry_t) (hcap : 0 < m.capacity)
    (hlen : m.table.length = m.capacity.toNat) :
    (put (put m K V1 j1).2 K V2 j2).1 = V1 ∧
    (put (put m K V1 j1).2 K V2 j2).2.size = (put m K V1 j1).2.size := by
  obtain ⟨t, s, n, c⟩ := m
  have hlt : (K % 4294967296).toNat % c.toNat < t.length := by
    rw [hlen]
    exact hashCode_lt ⟨t, s, n, c⟩ K hcap
  simp only [put, hashCode]
  cases hscan : putLoop K V1 (t.getD ((K % 4294967296).toNat % c.toNat) []) with
  | some p =>
    obtain ⟨o, c1⟩ := p
    simp only [getD_set_self t _ c1 [] hlt]
    obtain ⟨c2, hc2⟩ := putLoop_of_putLoop K V1 V2 _ o c1 hscan
    rw [hc2]
    exact ⟨rfl, rfl⟩
  | none =>
    simp only [getD_set_self t _ _ [] hlt]
    by_cases hemp : (t.getD ((K % 4294967296).toNat % c.toNat) []).isEmpty = true
    · simp only [if_pos hemp, putLoop_head]
      exact ⟨trivial, trivial⟩
    · simp only [if_neg hemp, putLoop_head]
      exact ⟨trivial, trivial⟩

theorem C6_overwrite_returns_old_witness :
    0 < sampleMap.capacity ∧ sampleMap.table.length = sampleMap.capacity.toNat ∧
    ((put (put sampleMap 0 7 []).2 0 8 []).1 = 7 ∧
     (put (put sampleMap 0 7 []).2 0 8 []).2.size = (put sampleMap 0 7 []).2.size) :=
  ⟨by decide, by decide,
    C6_overwrite_returns_old sampleMap 0 7 8 [] [] (by decide) (by decide)⟩

/-- C8: the code signals absence with `INT_MAX`: `get` returns it when
the key is absent, `put` returns it when the key was new, `del` returns
it when the key is not found — and the sentinel collides with a stored
value: after `put(K, INT_MAX)`, `get(K)` returns `INT_MAX`, which is
indistinguishable from the absent result. -/
theorem C8_intmax_sentinel (m : ts_hashmap_t) (K V : Int)
    (junkNext : List ts_entry_t) (hcap : 0 < m.capacity)
    (hlen : m.table.length = m.capacity.toNat)
    (habs : ∀ e ∈ m.table.getD (hashCode m K) [], e.key ≠ K) :
    (get m K).1 = INT_MAX ∧ (put m K V junkNext).1 = INT_MAX ∧
    (del m K).1 = INT_MAX ∧
    (get (put m K INT_MAX junkNext).2 K).1 = INT_MAX := by
  refine ⟨?_, ?_, ?_, get_after_put m K INT_MAX junkNext hcap hlen⟩
  · rw [get_eq]
    exact getLoop_absent K _ habs
  · obtain ⟨t, s, n, c⟩ := m
    simp only [hashCode] at habs
    simp only [put, hashCode]
    rw [putLoop_absent K V _ habs]
  · obtain ⟨t, s, n, c⟩ := m
    simp only [hashCode] at habs
    simp only [del, hashCode]
    rw [delLoop_absent K _ habs]

theorem C8_intmax_sentinel_witness :
    0 < sampleMap.capacity ∧ sampleMap.table.length = sampleMap.capacity.toNat ∧
    (∀ e ∈ sampleMap.table.getD (hashCode sampleMap 5) [], e.key ≠ 5) ∧
    ((get sampleMap 5).1 = INT_MAX ∧ (put sampleMap 5 7 []).1 = INT_MAX ∧
     (del sampleMap 5).1 = INT_MAX ∧
     (get (put sampleMap 5 INT_MAX []).2 5).1 = INT_MAX) :=
  ⟨by decide, by decide, by decide,
    C8_intmax_sentinel sampleMap 5 7 [] (by decide) (by decide) (by decide)⟩

/-- C9: the bucket index used by `get`, `put` and `del` is
`hashCode = (unsigned)K mod capacity`; for `capacity > 0` it lies in
`0 .. capacity - 1`, so every table access is in bounds. -/
theorem C9_hash_in_bounds (m : ts_hashmap_t) (K : Int) (hcap : 0 < m.capacity)
    (hlen : m.table.length = m.capacity.toNat) :
    hashCode m K = (K % 4294967296).toNat % m.capacity.toNat ∧
    hashCode m K < m.capacity.toNat ∧ hashCode m K < m.table.length :=
  ⟨rfl, hashCode_lt m K hcap, by rw [hlen]; exact hashCode_lt m K hcap⟩

theorem C9_hash_in_bounds_witness :
    0 < sampleMap.capacity ∧ sampleMap.table.length = sampleMap.capacity.toNat ∧
    (hashCode sampleMap (-5) = ((-5 : Int) % 4294967296).toNat % sampleMap.capacity.toNat ∧
     hashCode sampleMap (-5) < sampleMap.capacity.toNat ∧
     hashCode sampleMap (-5) < sampleMap.table.length) :=
  ⟨by decide, by decide, C9_hash_in_bounds sampleMap (-5) (by decide) (by decide)⟩

/-- C10: frame property of `del(K)` (stated for chains holding `K` at
most once, the invariant `put` maintains): when `K` is found, the
post-table is the old table with exactly the `K` entry filtered out of
`K`'s bucket — every other entry of that bucket survives in order with
key and value unchanged, and `List.set` leaves every other bucket
untouched; when `K` is absent, the table is left completely
unchanged. -/
theorem C10_del_frame (m : ts_hashmap_t) (K : Int) (hcap : 0 < m.capacity)
    (hlen : m.table.length = m.capacity.toNat)
    (huniq : (m.table.getD (hashCode m K) []).countP (fun e => e.key == K) ≤ 1) :
    ((∀ e ∈ m.table.getD (hashCode m K) [], e.key ≠ K) →
        (del m K).2.table = m.table) ∧
    ((∃ e ∈ m.table.getD (hashCode m K) [], e.key = K) →
        (del m K).2.table =
          m.table.set (hashCode m K)
            ((m.table.getD (hashCode m K) []).filter (fun e => !(e.key == K)))) := by
  obtain ⟨t, s, n, c⟩ := m
  simp only [hashCode] at huniq
  constructor
  · intro habs
    simp only [hashCode] at habs
    simp only [del, hashCode]
    rw [delLoop_absent K _ habs]
  · intro hpres
    simp only [hashCode] at hpres
    simp only [del, hashCode]
    obtain ⟨⟨v, c2⟩, hp⟩ := delLoop_present K _ hpres
    rw [hp, delLoop_eq_filter K _ v c2 huniq hp]

/-- C1 (code bug, `initmap` ts_hashmap.c:22-26): the constructor does
NOT leave the buckets empty — for every bucket it mallocs a fresh
`ts_entry_t` and installs that uninitialized entry as the chain head —
and it never assigns `map->size` or `map->numOps`, which keep their
indeterminate malloc'd content.  Evaluated at one possible content of
the uninitialized memory (head entry `{key 0, value 42, next NULL}`,
`size` reading 7, `numOps` reading 3): the fresh map has a non-empty
chain, junk counters, `get(0)` returns the junk value 42 instead of
`INT_MAX`, and `del(0)` returns 42 and decrements `size`. -/
theorem C1_initmap_garbage :
    (initmap 1 (fun _ => ⟨0, 42⟩) (fun _ => []) 7 3).table.getD 0 [] = [⟨0, 42⟩] ∧
    (initmap 1 (fun _ => ⟨0, 42⟩) (fun _ => []) 7 3).size = 7 ∧
    (initmap 1 (fun _ => ⟨0, 42⟩) (fun _ => []) 7 3).numOps = 3 ∧
    (get (initmap 1 (fun _ => ⟨0, 42⟩) (fun _ => []) 7 3) 0).1 = 42 ∧
    (del (initmap 1 (fun _ => ⟨0, 42⟩) (fun _ => []) 7 3) 0).1 = 42 ∧
    (del (initmap 1 (fun _ => ⟨0, 42⟩) (fun _ => []) 7 3) 0).2.size = 6 ∧
    (42 : Int) ≠ INT_MAX := by decide

/-- C2 (code bug, consequence of the `initmap` bug): `size` does not
equal the number of reachable entries after an operation completes.
With the junk head entry `{key 1, value 11}` and `size` reading 7,
a single `put(0, 5)` (a new key, prepended in front of the junk entry)
leaves 2 reachable entries while `size` is 8. -/
theorem C2_size_mismatch :
    countEntries (put (initmap 1 (fun _ => ⟨1, 11⟩) (fun _ => []) 7 3) 0 5 []).2 = 2 ∧
    (put (initmap 1 (fun _ => ⟨1, 11⟩) (fun _ => []) 7 3) 0 5 []).2.size = 8 ∧
    (put (initmap 1 (fun _ => ⟨1, 11⟩) (fun _ => []) 7 3) 0 5 []).2.size ≠
      (countEntries (put (initmap 1 (fun _ => ⟨1, 11⟩) (fun _ => []) 7 3) 0 5 []).2 : Int)
    := by decide

/-- C3 (code bug, `put` ts_hashmap.c:81): in the empty-bucket branch the
code stores `newEntry` as the head WITHOUT assigning `newEntry->next`,
so the new entry's link is the indeterminate malloc'd pointer, not none.
Evaluated at two possible contents of that uninitialized memory: the
resulting chain is whatever the junk pointer leads to — for junk reading
as a chain `[{9, 999}]` the bucket holds two entries, not the
single-none-terminated-entry chain the claim requires. -/
theorem C3_uninitialized_next :
    (put ⟨[[]], 0, 0, 1⟩ 7 70 [⟨9, 999⟩]).2.table.getD 0 [] = [⟨7, 70⟩, ⟨9, 999⟩] ∧
    (put ⟨[[]], 0, 0, 1⟩ 7 70 []).2.table.getD 0 [] = [⟨7, 70⟩] ∧
    (put ⟨[[]], 0, 0, 1⟩ 7 70 [⟨9, 999⟩]).2.table.getD 0 [] ≠ [⟨7, 70⟩] := by decide

/-- C4 (code bug): `put(3, 30); del(3); get(3)` does not end absent.
Start from the code's own `initmap(1)` with junk head `{9, 9}`; `del(9)`
empties bucket 0 (reachable behaviour of the code), so the subsequent
`put(3, 30)` takes the empty-bucket branch and leaves `newEntry->next`
uninitialized.  With that junk memory reading as an entry `{3, 999}`:
`del(3)` correctly returns 30 and decrements `size`, but it unlinks the
head and exposes the junk tail, and `get(3)` then returns 999 instead of
the absent sentinel `INT_MAX`. -/
theorem C4_del_then_get_not_absent :
    (del (put (del (initmap 1 (fun _ => ⟨9, 9⟩) (fun _ => []) 5 0) 9).2
        3 30 [⟨3, 999⟩]).2 3).1 = 30 ∧
    (del (put (del (initmap 1 (fun _ => ⟨9, 9⟩) (fun _ => []) 5 0) 9).2
        3 30 [⟨3, 999⟩]).2 3).2.size =
      (put (del (initmap 1 (fun _ => ⟨9, 9⟩) (fun _ => []) 5 0) 9).2
        3 30 [⟨3, 999⟩]).2.size - 1 ∧
    (get (del (put (del (initmap 1 (fun _ => ⟨9, 9⟩) (fun _ => []) 5 0) 9).2
        3 30 [⟨3, 999⟩]).2 3).2 3).1 = 999 ∧
    (999 : Int) ≠ INT_MAX := by decide

theorem C10_del_frame_witness :
    0 < sampleMap.capacity ∧ sampleMap.table.length = sampleMap.capacity.toNat ∧
    (sampleMap.table.getD (hashCode sampleMap 0) []).countP (fun e => e.key == 0) ≤ 1 ∧
    (∃ e ∈ sampleMap.table.getD (hashCode sampleMap 0) [], e.key = 0) ∧
    (del sampleMap 0).2.table =
      sampleMap.table.set (hashCode sampleMap 0)
        ((sampleMap.table.getD (hashCode sampleMap 0) []).filter (fun e => !(e.key == 0))) :=
  ⟨by decide, by decide, by decide, by decide,
    (C10_del_frame sampleMap 0 (by decide) (by decide) (by decide)).2 (by decide)⟩

/-- C7 (code bug, consequence of the `initmap` bug): `numOps` is never
initialized, so although every `get`/`put`/`del` does increment it by
exactly one (ts_hashmap.c:38-40, 63-65, 102-104), after N calls on a
fresh map it equals `junk + N`, not N.  With the junk counter reading 5,
one single `get` leaves `numOps = 6 ≠ 1`. -/
theorem C7_numOps_uninitialized :
    (initmap 1 (fun _ => ⟨0, 0⟩) (fun _ => []) 0 5).numOps = 5 ∧
    (get (initmap 1 (fun _ => ⟨0, 0⟩) (fun _ => []) 0 5) 1).2.numOps = 6 ∧
    (get (initmap 1 (fun _ => ⟨0, 0⟩) (fun _ => []) 0 5) 1).2.numOps ≠ 1 := by decide
